import Mathlib

set_option maxRecDepth 100000

/-!
Shallow embedding of the snowflake package (errors.go, snowflake.go and the
base-54 codec file): a Twitter-style snowflake ID generator over int64 with a
base-54 string codec.  Machine integers are modelled as `Int` with explicit
wrapping modulo 2 ^ 64 where Go int64 arithmetic can overflow; byte strings are
modelled as `List Nat` of byte values.
-/

namespace Snowflake

/-- Custom error type, from errors.go: `type SnowflakeError struct { Code int; Message string }`. -/
structure SnowflakeError where
  code : Nat
  message : String
deriving DecidableEq

/-- errors.go: `ErrorInvalid = SnowflakeError{0x0, "invalid id"}`. -/
def ErrorInvalid : SnowflakeError := ⟨0x0, "invalid id"⟩

/-- errors.go: `ErrorInvalidByte = SnowflakeError{0x1, "invalid byte detected"}`. -/
def ErrorInvalidByte : SnowflakeError := ⟨0x1, "invalid byte detected"⟩

/-- errors.go: `ErrorInvalidJson = SnowflakeError{0x2, "invalid json format"}`. -/
def ErrorInvalidJson : SnowflakeError := ⟨0x2, "invalid json format"⟩

/-- errors.go: `ErrorEncodeMapLength = SnowflakeError{0x100, "encode map is not long enough"}`. -/
def ErrorEncodeMapLength : SnowflakeError := ⟨0x100, "encode map is not long enough"⟩

/-- snowflake.go: `const Invalid ID = ID(-1)`, the sentinel. -/
def Invalid : Int := -1

/-- snowflake.go: `const Epoch int64 = 1577836801000` (2020-01-01 00:00:01 UTC in ms). -/
def Epoch : Int := 1577836801000

/-- snowflake.go: `const bitsTimestamp int64 = 42`. -/
def bitsTimestamp : Nat := 42

/-- snowflake.go: `const bitsMachineID int64 = 9`. -/
def bitsMachineID : Nat := 9

/-- snowflake.go: `const bitsMachineSequence int64 = 12`. -/
def bitsMachineSequence : Nat := 12

/-- snowflake.go init: `bitMapMachineId = int64(math.Pow(2, float64(bitsMachineID))) - 1` = 511. -/
def bitMapMachineId : Int := 2 ^ bitsMachineID - 1

/-- snowflake.go init: `bitMapMachineSequence = int64(math.Pow(2, float64(bitsMachineSequence))) - 1` = 4095. -/
def bitMapMachineSequence : Int := 2 ^ bitsMachineSequence - 1

/-- The scrambled base-54 alphabet string from the codec file. -/
def alphabet : List Char := "g82FcYyTeUr0vsn1Jb9NmLMPuHGhVztRp4f3jDk5Zd6ECaw7AWQKXx".toList

/-- Byte values of the alphabet characters (Go indexes the string as bytes; all
characters are ASCII, so each byte is the character code). -/
def alphabetBytes : List Nat := alphabet.map Char.toNat

/-- The 256-entry lookup table built by `initDecodeMap`: every entry starts as
0xFF (invalid) and then `decodeMap[alphabet[i]] = byte(i)` for each position i. -/
def decodeTable : List Nat :=
  (List.range alphabetBytes.length).foldl
    (fun m i => m.set (alphabetBytes.getD i 0) i)
    (List.replicate 256 0xFF)

/-- Lookup in the decode table: `decodeMap[b]`.  Indices beyond 255 cannot occur
for Go bytes; the default keeps the function total. -/
def decodeMap (b : Nat) : Nat := decodeTable.getD b 0xFF

/-- Fuel-indexed form of the digit loop of `base54` (the fuel only bounds the
number of divisions so that the recursion is structural; any fuel at least n
gives the same result, see `base54DigitsGo_fuel` and `base54Digits_eq`). -/
def base54DigitsGo : Nat → Nat → List Nat
  | 0, n => [n]
  | fuel + 1, n =>
    if n < 54 then [n]
    else base54DigitsGo fuel (n / 54) ++ [n % 54]

/-- The base-54 digits of n, most significant first.  This is the digit loop of
the `base54` method: the source writes `alphabet[id%54]` into a buffer from the
back while `id >= 54`, then the final quotient, and returns the used suffix of
the buffer, which is exactly this digit list mapped through the alphabet. -/
def base54Digits (n : Nat) : List Nat := base54DigitsGo n n

/-- The byte the encoder emits for one digit: `alphabet[d]`. -/
def byteOfDigit (d : Nat) : Nat := alphabetBytes.getD d 0

/-- The `base54` method, returning the pair (string, error) of the source:
negative IDs yield `("", &ErrorInvalid)`; `id < 54` yields the single character
at that alphabet position; larger IDs yield the digit loop output.  The Go
if-ladder and the digit list agree because `base54Digits n = [n]` for n < 54. -/
def base54 (id : Int) : List Nat × Option SnowflakeError :=
  if id < 0 then ([], some ErrorInvalid)
  else ((base54Digits id.toNat).map byteOfDigit, none)

/-- The accumulation loop of `decode54`, on the unsigned 64-bit pattern of the
Go int64 accumulator: `id = id*54 + int64(decodeMap[b[i]])` wraps modulo 2 ^ 64,
and the loop returns early (here: none) on the first byte marked 0xFF. -/
def decode54Loop (id : Nat) : List Nat → Option Nat
  | [] => some id
  | b :: rest =>
    if decodeMap b = 0xFF then none
    else decode54Loop ((id * 54 + decodeMap b) % 2 ^ 64) rest

/-- Signed value of an unsigned 64-bit pattern (wrapping int64 semantics): the
pattern n stands for n when n < 2 ^ 63 and for n - 2 ^ 64 otherwise. -/
def int64OfBits (n : Nat) : Int :=
  if n < 2 ^ 63 then (n : Int) else (n : Int) - 2 ^ 64

/-- `decode54`: run the loop; an invalid byte gives `(Invalid, &ErrorInvalidByte)`;
a negative accumulator after the loop (signed 64-bit overflow) gives
`(Invalid, &ErrorInvalid)`; otherwise the value with no error. -/
def decode54 (b : List Nat) : Int × Option SnowflakeError :=
  match decode54Loop 0 b with
  | none => (Invalid, some ErrorInvalidByte)
  | some acc =>
    if int64OfBits acc < 0 then (Invalid, some ErrorInvalid)
    else (int64OfBits acc, none)

/-- snowflake.go: `func Parse(input string) (ID, error) { return decode54([]byte(input)) }`. -/
def Parse (input : List Nat) : Int × Option SnowflakeError := decode54 input

/-- Unsigned 64-bit pattern of an int64 value (wrapping semantics: the pattern
of x is x modulo 2 ^ 64, which for x in the int64 range is the usual
complement representation). -/
def bits64 (x : Int) : Nat := (x % (2 ^ 64 : Int)).toNat

/-- int64 left shift with wrapping, as in Go: shift the 64-bit pattern and drop
high bits. -/
def int64Shl (x : Int) (k : Nat) : Int := int64OfBits (bits64 x <<< k % 2 ^ 64)

/-- int64 bitwise or, as in Go, on the 64-bit patterns. -/
def int64Lor (x y : Int) : Int := int64OfBits (Nat.lor (bits64 x) (bits64 y))

/-- int64 bitwise and, as in Go, on the 64-bit patterns. -/
def int64Land (x y : Int) : Int := int64OfBits (Nat.land (bits64 x) (bits64 y))

/-- int64 arithmetic right shift, as in Go.  On every int64 value this equals
floor division by 2 ^ k, and Lean division by a positive divisor is exactly
floor division. -/
def int64Shr (x : Int) (k : Nat) : Int := x / 2 ^ k

/-- The mutable generator state of snowflake.go: the package variables
`previous`, `machineSequence` and `machineId` (all int64, zero initialised). -/
structure GenState where
  previous : Int
  machineSequence : Int
  machineId : Int
deriving DecidableEq

/-- The zero-initialised generator state with a configured machine id. -/
def initialState (mid : Int) : GenState := ⟨0, 0, mid⟩

/-- The busy-wait loop of Generate: `for now <= previous { now = sample() }`.
The list holds the values the clock would deliver on successive re-samples; the
loop exits with the first sample strictly above `previous`, and none models the
loop never terminating because the supplied clock trace is exhausted. -/
def busyWait (previous now : Int) (later : List Int) : Option Int :=
  if previous < now then some now
  else
    match later with
    | [] => none
    | t :: ts => busyWait previous t ts

/-- The returned-ID expression of Generate:
`now<<(bitsMachineID+bitsMachineSequence) | (machineId << bitsMachineSequence) | machineSequence`. -/
def assembleID (now mid seq : Int) : Int :=
  int64Lor
    (int64Lor (int64Shl now (bitsMachineID + bitsMachineSequence))
      (int64Shl mid bitsMachineSequence))
    seq

/-- The tail of Generate after the branch ladder: increment the sequence with
the 12-bit mask (`machineSequence = (machineSequence + 1) & bitMapMachineSequence`),
record `previous = now`, and assemble the returned ID. -/
def finishGenerate (st : GenState) (now : Int) : GenState × Int :=
  let seq := int64Land (st.machineSequence + 1) bitMapMachineSequence
  (⟨now, seq, st.machineId⟩, assembleID now st.machineId seq)

/-- One call of `Generate()`.  `now` is the sampled elapsed-millisecond value
`time.Since(epoch).Milliseconds()`; `later` are the values further re-samples
inside the busy-wait would deliver.  The clock-regression branch panics in the
source and is modelled as none, as is an exhausted busy-wait trace. -/
def generate (st : GenState) (now : Int) (later : List Int) : Option (GenState × Int) :=
  if now = st.previous ∧ st.machineSequence = bitMapMachineSequence then
    (busyWait st.previous now later).map (finishGenerate st)
  else if st.previous < now then
    some (finishGenerate ⟨st.previous, -1, st.machineId⟩ now)
  else if now < st.previous then
    none
  else
    some (finishGenerate st now)

/-- A sequence of `Generate()` calls from one caller: each call supplies its
sampled `now` and busy-wait trace; the returned IDs are collected in order. -/
def genCalls (st : GenState) : List (Int × List Int) → Option (GenState × List Int)
  | [] => some (st, [])
  | c :: rest =>
    match generate st c.1 c.2 with
    | none => none
    | some (st1, id) =>
      match genCalls st1 rest with
      | none => none
      | some (stF, ids) => some (stF, id :: ids)

/-- All clock samples a run of calls consumes, in order. -/
def runSamples (calls : List (Int × List Int)) : List Int :=
  (calls.map fun c => c.1 :: c.2).flatten

/-- snowflake.go accessor: `func (id ID) Time() int64`, which is
`(int64(id) >> (bitsMachineID + bitsMachineSequence)) + Epoch`. -/
def Time (id : Int) : Int := int64Shr id (bitsMachineID + bitsMachineSequence) + Epoch

/-- snowflake.go accessor: `func (id ID) MachineId() int64`, which is
`(int64(id) >> bitsMachineSequence) & bitMapMachineId`. -/
def MachineId (id : Int) : Int := int64Land (int64Shr id bitsMachineSequence) bitMapMachineId

/-- snowflake.go accessor: `func (id ID) MachineSequence() int64`, which is
`int64(id) & bitMapMachineSequence`. -/
def MachineSequence (id : Int) : Int := int64Land id bitMapMachineSequence

/-- The `String` method: return the base-54 encoding, or the empty string when
`base54` reports an error. -/
def idString (id : Int) : List Nat :=
  let r := base54 id
  if r.2.isSome then [] else r.1

/-- Models `encoding/json.Marshal` applied to a Go string value: the string
wrapped in double quotes (byte 34).  Characters of the base-54 alphabet are
alphanumeric and need no JSON escaping, and Marshal of a string value never
returns an error. -/
def jsonMarshalString (s : List Nat) : List Nat := 34 :: s ++ [34]

/-- The `MarshalJSON` method: `return json.Marshal(id.String())`, as the pair
(bytes, error) of the source. -/
def MarshalJSON (id : Int) : List Nat × Option SnowflakeError :=
  (jsonMarshalString (idString id), none)

/-- The region lookup table of the continents file (Fly.io region codes grouped
by continent, largest first). -/
def continents : List (List String) :=
  [["bom", "hkg", "nrt", "sin"],
   ["jnb"],
   ["atl", "bos", "den", "dfw", "ewr", "iad", "lax", "mia", "ord", "phx", "sea", "sjc", "yul", "yyz"],
   ["bog", "eze", "gdl", "gig", "gru", "qro", "scl"],
   [],
   ["ams", "arn", "cdg", "fra", "lhr", "mad", "otp", "waw"],
   ["syd"]]

/-- `getContinentCode`: index of the first continent containing the region,
or -1 when the region is unknown. -/
def getContinentCode (region : String) : Int :=
  match continents.findIdx? (fun c => decide (region ∈ c)) with
  | some i => (i : Int)
  | none => -1

/-- `SetMachineId`: resolve the region, validate the index, and pack
`((continent & 0b111) << (bitsMachineID-3)) | (index & (maxMachineNumber-1))`.
The source panics on invalid input, modelled as none. -/
def setMachineId (region : String) (index : Int) : Option Int :=
  let continent := getContinentCode region
  let maxMachineNumber : Int := 2 ^ (bitsMachineID - 3)
  if continent < 0 ∨ index < 0 ∨ maxMachineNumber ≤ index then none
  else some (int64Lor (int64Shl (int64Land continent 7) (bitsMachineID - 3))
    (int64Land index (maxMachineNumber - 1)))

/-- Horner accumulation of a digit list on top of an accumulator: the exact
(non-wrapping) value the decode loop computes digit by digit. -/
def hornerVal (a : Nat) (ds : List Nat) : Nat := ds.foldl (fun x d => x * 54 + d) a

/-- The decode table written out entry by entry (checked against the fold that
builds it in `decodeTable_eq`); kept only so that facts about `decodeMap` can
be evaluated cheaply. -/
def decodeTableLit : List Nat :=
  [255, 255, 255, 255, 255, 255, 255, 255, 255, 255, 255, 255, 255, 255, 255, 255,
   255, 255, 255, 255, 255, 255, 255, 255, 255, 255, 255, 255, 255, 255, 255, 255,
   255, 255, 255, 255, 255, 255, 255, 255, 255, 255, 255, 255, 255, 255, 255, 255,
   11, 15, 2, 35, 33, 39, 42, 47, 1, 18, 255, 255, 255, 255, 255, 255,
   255, 48, 255, 44, 37, 43, 3, 26, 25, 255, 16, 51, 21, 22, 19, 255,
   23, 50, 31, 255, 7, 9, 28, 49, 52, 5, 40, 255, 255, 255, 255, 255,
   255, 45, 17, 4, 41, 8, 34, 0, 27, 255, 36, 38, 255, 20, 14, 255,
   32, 255, 10, 13, 30, 24, 12, 46, 53, 6, 29, 255, 255, 255, 255, 255,
   255, 255, 255, 255, 255, 255, 255, 255, 255, 255, 255, 255, 255, 255, 255, 255,
   255, 255, 255, 255, 255, 255, 255, 255, 255, 255, 255, 255, 255, 255, 255, 255,
   255, 255, 255, 255, 255, 255, 255, 255, 255, 255, 255, 255, 255, 255, 255, 255,
   255, 255, 255, 255, 255, 255, 255, 255, 255, 255, 255, 255, 255, 255, 255, 255,
   255, 255, 255, 255, 255, 255, 255, 255, 255, 255, 255, 255, 255, 255, 255, 255,
   255, 255, 255, 255, 255, 255, 255, 255, 255, 255, 255, 255, 255, 255, 255, 255,
   255, 255, 255, 255, 255, 255, 255, 255, 255, 255, 255, 255, 255, 255, 255, 255,
   255, 255, 255, 255, 255, 255, 255, 255, 255, 255, 255, 255, 255, 255, 255, 255]

/-- Invariant on the generator state maintained by `generate` under an in-range
monotone clock: `previous` holds a 42-bit timestamp, the sequence is a 12-bit
value, and the machine id is the 9-bit value `SetMachineId` installs. -/
def StInv (st : GenState) : Prop :=
  0 ≤ st.previous ∧ st.previous < 2 ^ 42 ∧
  0 ≤ st.machineSequence ∧ st.machineSequence ≤ 4095 ∧
  0 ≤ st.machineId ∧ st.machineId < 512

/-- The ID whose fields a generator state records: the value the most recent
`Generate()` call returned (for states reached by a call). -/
def idVal (st : GenState) : Int :=
  assembleID st.previous st.machineId st.machineSequence

/-! ### Digit loop: fuel invariance and recurrence -/

theorem base54DigitsGo_fuel (f1 : Nat) : ∀ f2 n, n ≤ f1 → n ≤ f2 →
    base54DigitsGo f1 n = base54DigitsGo f2 n := by
  induction f1 with
  | zero =>
    intro f2 n h1 _
    interval_cases n
    cases f2 <;> simp [base54DigitsGo]
  | succ f ih =>
    intro f2 n h1 h2
    cases f2 with
    | zero =>
      interval_cases n
      simp [base54DigitsGo]
    | succ f2 =>
      by_cases h : n < 54
      · simp [base54DigitsGo, h]
      · simp only [base54DigitsGo, if_neg h]
        rw [ih f2 (n / 54) (by omega) (by omega)]

theorem base54Digits_small {n : Nat} (h : n < 54) : base54Digits n = [n] := by
  unfold base54Digits
  cases n with
  | zero => rfl
  | succ m => simp [base54DigitsGo, h]

theorem base54DigitsGo_succ (f n : Nat) (h : 54 ≤ n) :
    base54DigitsGo (f + 1) n = base54DigitsGo f (n / 54) ++ [n % 54] := by
  simp only [base54DigitsGo]
  rw [if_neg (by omega : ¬ n < 54)]

theorem base54Digits_large {n : Nat} (h : 54 ≤ n) :
    base54Digits n = base54Digits (n / 54) ++ [n % 54] := by
  unfold base54Digits
  obtain ⟨f, hf⟩ : ∃ f, n = f + 1 := ⟨n - 1, by omega⟩
  subst hf
  rw [base54DigitsGo_succ f (f + 1) h]
  exact congrArg (· ++ [(f + 1) % 54])
    (base54DigitsGo_fuel f ((f + 1) / 54) ((f + 1) / 54) (by omega) (le_refl _))

theorem base54Digits_ne_nil (n : Nat) : base54Digits n ≠ [] := by
  by_cases h : n < 54
  · simp [base54Digits_small h]
  · rw [base54Digits_large (by omega)]
    simp

theorem base54Digits_lt (n : Nat) : ∀ d ∈ base54Digits n, d < 54 := by
  induction n using Nat.strong_induction_on with
  | _ n ih =>
    by_cases h : n < 54
    · simp [base54Digits_small h, h]
    · rw [base54Digits_large (by omega)]
      intro d hd
      rcases List.mem_append.mp hd with hd | hd
      · exact ih (n / 54) (by omega) d hd
      · simp only [List.mem_singleton] at hd
        omega

theorem hornerVal_nil (a : Nat) : hornerVal a [] = a := rfl

theorem hornerVal_cons (a d : Nat) (ds : List Nat) :
    hornerVal a (d :: ds) = hornerVal (a * 54 + d) ds := rfl

theorem hornerVal_append (a d : Nat) (ds : List Nat) :
    hornerVal a (ds ++ [d]) = hornerVal a ds * 54 + d := by
  simp [hornerVal, List.foldl_append]

theorem hornerVal_base54Digits (n : Nat) : ∀ a, hornerVal a (base54Digits n) =
    a * 54 ^ (base54Digits n).length + n := by
  induction n using Nat.strong_induction_on with
  | _ n ih =>
    intro a
    by_cases h : n < 54
    · simp [base54Digits_small h, hornerVal]
    · rw [base54Digits_large (by omega), hornerVal_append, ih (n / 54) (by omega) a]
      rw [List.length_append, List.length_singleton, pow_succ]
      have hmod : n / 54 * 54 + n % 54 = n := by omega
      have hring : (a * 54 ^ (base54Digits (n / 54)).length + n / 54) * 54 + n % 54 =
          a * (54 ^ (base54Digits (n / 54)).length * 54) + (n / 54 * 54 + n % 54) := by
        ring
      rw [hring, hmod]

theorem base54Digits_headD_pos {n : Nat} (h : 1 ≤ n) : 1 ≤ (base54Digits n).headD 0 := by
  induction n using Nat.strong_induction_on with
  | _ n ih =>
    by_cases hs : n < 54
    · simp [base54Digits_small hs]
      omega
    · rw [base54Digits_large (by omega)]
      have := ih (n / 54) (by omega) (by omega)
      cases hd : base54Digits (n / 54) with
      | nil => exact absurd hd (base54Digits_ne_nil _)
      | cons x xs =>
        rw [hd] at this
        simp only [List.cons_append, List.headD_cons] at this ⊢
        exact this

theorem base54Digits_length_le {n L : Nat} (hL : 1 ≤ L) (h : n < 54 ^ L) :
    (base54Digits n).length ≤ L := by
  induction n using Nat.strong_induction_on generalizing L with
  | _ n ih =>
    by_cases hs : n < 54
    · simp [base54Digits_small hs]
      omega
    · rw [base54Digits_large (by omega)]
      have hL2 : 2 ≤ L := by
        by_contra hc
        have hL1 : L = 1 := by omega
        subst hL1
        simp at h
        omega
      have hq : n / 54 < 54 ^ (L - 1) := by
        rw [Nat.div_lt_iff_lt_mul (by omega)]
        calc n < 54 ^ L := h
          _ = 54 ^ (L - 1) * 54 := by
            rw [← pow_succ]
            congr 1
            omega
      have := ih (n / 54) (by omega) (by omega) hq
      simp only [List.length_append, List.length_singleton]
      omega

theorem hornerVal_lt (ds : List Nat) : ∀ a, (∀ d ∈ ds, d < 54) →
    hornerVal a ds < (a + 1) * 54 ^ ds.length := by
  induction ds with
  | nil =>
    intro a _
    simp [hornerVal]
  | cons d t ih =>
    intro a hd
    rw [hornerVal_cons]
    have h1 : hornerVal (a * 54 + d) t < (a * 54 + d + 1) * 54 ^ t.length :=
      ih _ (fun x hx => hd x (List.mem_cons_of_mem _ hx))
    have h2 : (a * 54 + d + 1) * 54 ^ t.length ≤ (a + 1) * 54 ^ (d :: t).length := by
      rw [List.length_cons, pow_succ, show (a + 1) * (54 ^ t.length * 54) = ((a + 1) * 54) * 54 ^ t.length by ring]
      have : a * 54 + d + 1 ≤ (a + 1) * 54 := by
        have := hd d (List.mem_cons_self d t)
        nlinarith
      exact Nat.mul_le_mul_right _ this
    omega

theorem hornerVal_ge (ds : List Nat) : ∀ a, a * 54 ^ ds.length ≤ hornerVal a ds := by
  induction ds with
  | nil => intro a; simp [hornerVal]
  | cons d t ih =>
    intro a
    rw [hornerVal_cons]
    calc a * 54 ^ (d :: t).length = (a * 54) * 54 ^ t.length := by
          rw [List.length_cons, pow_succ]; ring
      _ ≤ (a * 54 + d) * 54 ^ t.length := Nat.mul_le_mul_right _ (by omega)
      _ ≤ hornerVal (a * 54 + d) t := ih _

/-! ### Decode table facts -/

theorem decodeTable_eq : decodeTable = decodeTableLit := by decide

theorem decodeTableLit_length : decodeTableLit.length = 256 := by decide

theorem decodeMap_overflow {b : Nat} (h : 256 ≤ b) : decodeMap b = 0xFF := by
  rw [decodeMap, decodeTable_eq]
  exact List.getD_eq_default _ _ (by rw [decodeTableLit_length]; omega)

theorem alphabetBytes_lt_256 : ∀ b ∈ alphabetBytes, b < 256 := by decide

theorem decodeMap_byteOfDigit : ∀ d, d < 54 → decodeMap (byteOfDigit d) = d := by
  simp only [decodeMap, decodeTable_eq]
  decide

theorem decodeMap_mem : ∀ b ∈ alphabetBytes, decodeMap b ≠ 0xFF := by
  simp only [decodeMap, decodeTable_eq]
  decide

theorem decodeMap_not_mem : ∀ b : Nat, b ∉ alphabetBytes → decodeMap b = 0xFF := by
  intro b hb
  by_cases h : b < 256
  · revert hb
    revert h
    revert b
    simp only [decodeMap, decodeTable_eq]
    decide
  · exact decodeMap_overflow (by omega)

theorem decodeMap_lt_54 : ∀ b : Nat, decodeMap b ≠ 0xFF → decodeMap b < 54 := by
  intro b hb
  by_cases h : b < 256
  · revert hb
    revert h
    revert b
    simp only [decodeMap, decodeTable_eq]
    decide
  · exact absurd (decodeMap_overflow (by omega)) hb

theorem byteOfDigit_decodeMap : ∀ b ∈ alphabetBytes, byteOfDigit (decodeMap b) = b := by
  simp only [decodeMap, decodeTable_eq]
  decide

theorem byteOfDigit_ne_zero_symbol : ∀ d, 1 ≤ d → d < 54 → byteOfDigit d ≠ 103 := by decide

theorem byteOfDigit_mem : ∀ d, d < 54 → byteOfDigit d ∈ alphabetBytes := by decide

theorem decodeMap_pos_of_ne_zero_symbol :
    ∀ b ∈ alphabetBytes, b ≠ 103 → 1 ≤ decodeMap b := by
  simp only [decodeMap, decodeTable_eq]
  decide

/-- Canonical digit lists are recovered by the encoder loop: a nonempty digit
list with digits below 54 and no redundant leading zero re-encodes to itself. -/
theorem base54Digits_hornerVal (ds : List Nat) (hne : ds ≠ [])
    (hlt : ∀ d ∈ ds, d < 54) (hhead : ds.length = 1 ∨ 1 ≤ ds.headD 0) :
    base54Digits (hornerVal 0 ds) = ds := by
  induction ds using List.reverseRecOn with
  | nil => exact absurd rfl hne
  | append_singleton init d ih =>
    have hd : d < 54 := hlt d (List.mem_append_right _ (by simp))
    cases hinit : init with
    | nil =>
      subst hinit
      simp only [List.nil_append]
      rw [show hornerVal 0 [d] = d by simp [hornerVal], base54Digits_small hd]
    | cons x xs =>
      subst hinit
      have hinitne : (x :: xs) ≠ [] := by simp
      have hheadinit : 1 ≤ (x :: xs).headD 0 := by
        rcases hhead with h1 | h2
        · simp at h1
        · simpa using h2
      have hx : 1 ≤ x := by simpa using hheadinit
      have hltinit : ∀ y ∈ x :: xs, y < 54 := fun y hy => hlt y (List.mem_append_left _ hy)
      have heq : hornerVal 0 (x :: xs) = hornerVal x xs := by
        simp [hornerVal_cons]
      have hvinit : 1 ≤ hornerVal 0 (x :: xs) := by
        rw [heq]
        have h1 : 1 * 1 ≤ x * 54 ^ xs.length :=
          Nat.mul_le_mul hx (Nat.one_le_pow _ _ (by omega))
        have h2 := hornerVal_ge xs x
        omega
      have hval : hornerVal 0 ((x :: xs) ++ [d]) = hornerVal 0 (x :: xs) * 54 + d :=
        hornerVal_append 0 d (x :: xs)
      rw [hval, base54Digits_large (by omega : 54 ≤ hornerVal 0 (x :: xs) * 54 + d)]
      have hdivd : (hornerVal 0 (x :: xs) * 54 + d) / 54 = hornerVal 0 (x :: xs) := by omega
      have hmodd : (hornerVal 0 (x :: xs) * 54 + d) % 54 = d := by omega
      rw [hdivd, hmodd, ih hinitne hltinit (Or.inr hheadinit)]

/-! ### Decode loop characterisation -/

theorem hornerVal_modCongr (ds : List Nat) : ∀ a b M : Nat, a % M = b % M →
    hornerVal a ds % M = hornerVal b ds % M := by
  induction ds with
  | nil => intro a b M h; simpa [hornerVal] using h
  | cons d t ih =>
    intro a b M h
    rw [hornerVal_cons, hornerVal_cons]
    exact ih _ _ _ (Nat.ModEq.add_right d (Nat.ModEq.mul_right 54 h))

theorem decode54Loop_valid (s : List Nat) : ∀ a, a < 2 ^ 64 →
    (∀ b ∈ s, decodeMap b ≠ 0xFF) →
    decode54Loop a s = some (hornerVal a (s.map decodeMap) % 2 ^ 64) := by
  induction s with
  | nil =>
    intro a ha _
    simp only [decode54Loop, List.map_nil, hornerVal_nil, Nat.mod_eq_of_lt ha]
  | cons b t ih =>
    intro a ha hv
    have hb : ¬ decodeMap b = 0xFF := hv b (List.mem_cons_self _ _)
    simp only [decode54Loop, if_neg hb]
    rw [ih _ (Nat.mod_lt _ (by norm_num)) (fun x hx => hv x (List.mem_cons_of_mem _ hx))]
    rw [List.map_cons, hornerVal_cons]
    exact congrArg some (hornerVal_modCongr _ _ _ _ (Nat.mod_mod_of_dvd _ dvd_rfl))

theorem decode54Loop_invalid (s : List Nat) : ∀ a, (∃ b ∈ s, decodeMap b = 0xFF) →
    decode54Loop a s = none := by
  induction s with
  | nil => intro a h; simp at h
  | cons b t ih =>
    intro a h
    by_cases hb : decodeMap b = 0xFF
    · simp [decode54Loop, hb]
    · obtain ⟨x, hx, hxv⟩ := h
      rcases List.mem_cons.mp hx with rfl | hx
      · exact absurd hxv hb
      · simp only [decode54Loop, if_neg hb]
        exact ih _ ⟨x, hx, hxv⟩

theorem int64OfBits_of_lt {n : Nat} (h : n < 2 ^ 63) : int64OfBits n = (n : Int) := by
  unfold int64OfBits
  rw [if_pos h]

theorem int64OfBits_neg_of_ge {n : Nat} (h1 : 2 ^ 63 ≤ n) (h2 : n < 2 ^ 64) :
    int64OfBits n < 0 := by
  rw [int64OfBits, if_neg (by omega)]
  have : (n : Int) < 2 ^ 64 := by exact_mod_cast h2
  omega

theorem hornerVal_lt_of_length {s : List Nat} (hlt : ∀ d ∈ s, d < 54) (hlen : s.length ≤ 11) :
    hornerVal 0 s < 2 ^ 64 := by
  have h1 : hornerVal 0 s < (0 + 1) * 54 ^ s.length := hornerVal_lt s 0 hlt
  have h2 : (54 : Nat) ^ s.length ≤ 54 ^ 11 := Nat.pow_le_pow_right (by omega) hlen
  have h3 : (54 : Nat) ^ 11 < 2 ^ 64 := by norm_num
  omega

/-- Decoding a fully valid byte string yields the Horner value of its digits
whenever that value fits the nonnegative int64 range. -/
theorem decode54_of_valid_small {s : List Nat} (hv : ∀ b ∈ s, b ∈ alphabetBytes)
    (hsmall : hornerVal 0 (s.map decodeMap) < 2 ^ 63) :
    decode54 s = ((hornerVal 0 (s.map decodeMap) : Int), none) := by
  have hne : ∀ b ∈ s, decodeMap b ≠ 0xFF := fun b hb => decodeMap_mem b (hv b hb)
  have hloop := decode54Loop_valid s 0 (by norm_num) hne
  rw [Nat.mod_eq_of_lt (by omega : hornerVal 0 (s.map decodeMap) < 2 ^ 64)] at hloop
  unfold decode54
  rw [hloop]
  dsimp only
  rw [int64OfBits_of_lt hsmall, if_neg (not_lt.mpr (Int.natCast_nonneg _))]

/-- Decoding a fully valid byte string whose Horner value lands in the negative
half of the 64-bit pattern range reports the overflow. -/
theorem decode54_of_valid_overflow {s : List Nat} (hv : ∀ b ∈ s, b ∈ alphabetBytes)
    (h1 : 2 ^ 63 ≤ hornerVal 0 (s.map decodeMap))
    (h2 : hornerVal 0 (s.map decodeMap) < 2 ^ 64) :
    decode54 s = (Invalid, some ErrorInvalid) := by
  have hne : ∀ b ∈ s, decodeMap b ≠ 0xFF := fun b hb => decodeMap_mem b (hv b hb)
  have hloop := decode54Loop_valid s 0 (by norm_num) hne
  rw [Nat.mod_eq_of_lt h2] at hloop
  unfold decode54
  rw [hloop]
  dsimp only
  rw [if_pos (int64OfBits_neg_of_ge h1 h2)]

/-! ### Codec claims -/

/-- C1: for every nonnegative 64-bit integer v in [0, 2 ^ 63), decoding the
base-54 encoding of v returns v again, with neither operation reporting an
error. -/
theorem claim_C1_roundtrip (v : Int) (h0 : 0 ≤ v) (h1 : v < 2 ^ 63) :
    ∃ s, base54 v = (s, none) ∧ decode54 s = (v, none) := by
  refine ⟨(base54Digits v.toNat).map byteOfDigit, ?_, ?_⟩
  · rw [base54, if_neg (not_lt.mpr h0)]
  · have hdlt : ∀ d ∈ base54Digits v.toNat, d < 54 := base54Digits_lt v.toNat
    have hv : ∀ b ∈ (base54Digits v.toNat).map byteOfDigit, b ∈ alphabetBytes := by
      intro b hb
      obtain ⟨d, hd, rfl⟩ := List.mem_map.mp hb
      exact byteOfDigit_mem d (hdlt d hd)
    have hmapmap : ((base54Digits v.toNat).map byteOfDigit).map decodeMap =
        base54Digits v.toNat := by
      rw [List.map_map]
      have hcongr : List.map (decodeMap ∘ byteOfDigit) (base54Digits v.toNat) =
          List.map id (base54Digits v.toNat) :=
        List.map_congr_left (fun d hd => decodeMap_byteOfDigit d (hdlt d hd))
      rw [hcongr, List.map_id]
    have hval : hornerVal 0 (((base54Digits v.toNat).map byteOfDigit).map decodeMap) =
        v.toNat := by
      rw [hmapmap]
      simpa using hornerVal_base54Digits v.toNat 0
    have hsmall : hornerVal 0 (((base54Digits v.toNat).map byteOfDigit).map decodeMap) <
        2 ^ 63 := by
      rw [hval]
      omega
    rw [decode54_of_valid_small hv hsmall, hval, Int.toNat_of_nonneg h0]

theorem claim_C1_roundtrip_witness : ∃ s, base54 123123123 = (s, none) ∧
    decode54 s = (123123123, none) :=
  claim_C1_roundtrip 123123123 (by decide) (by decide)

/-- C6: encoding succeeds exactly on nonnegative IDs: a negative ID (including
the sentinel) yields the empty string with the invalid-id error; an ID below 54
yields the single character at that alphabet position; any ID in [0, 2 ^ 63)
yields at most 11 characters with no error, and the first character is not the
zero symbol when the ID is at least 54 (shortest form, no leading zeros). -/
theorem claim_C6_encode (id : Int) :
    (id < 0 → base54 id = ([], some ErrorInvalid)) ∧
    (0 ≤ id → id < 54 → base54 id = ([byteOfDigit id.toNat], none)) ∧
    (0 ≤ id → id < 2 ^ 63 →
      (base54 id).2 = none ∧ (base54 id).1.length ≤ 11 ∧
      (54 ≤ id → (base54 id).1.headD 0 ≠ byteOfDigit 0)) := by
  refine ⟨?_, ?_, ?_⟩
  · intro h
    rw [base54, if_pos h]
  · intro h0 h54
    rw [base54, if_neg (not_lt.mpr h0), base54Digits_small (by omega : id.toNat < 54)]
    rfl
  · intro h0 h63
    rw [base54, if_neg (not_lt.mpr h0)]
    refine ⟨rfl, ?_, ?_⟩
    · rw [List.length_map]
      have hpow : (2 : Nat) ^ 63 ≤ 54 ^ 11 := by norm_num
      exact base54Digits_length_le (by omega) (by omega)
    · intro h54
      have hpos : 1 ≤ (base54Digits id.toNat).headD 0 :=
        base54Digits_headD_pos (by omega)
      cases hd : base54Digits id.toNat with
      | nil => exact absurd hd (base54Digits_ne_nil _)
      | cons x xs =>
        rw [hd] at hpos
        simp only [List.headD_cons] at hpos
        have hx54 : x < 54 := base54Digits_lt id.toNat x (hd ▸ List.mem_cons_self x xs)
        simp only [hd, List.map_cons, List.headD_cons]
        have h103 : byteOfDigit 0 = 103 := by decide
        rw [h103]
        exact byteOfDigit_ne_zero_symbol x hpos hx54

theorem claim_C6_encode_witness :
    base54 (-1) = ([], some ErrorInvalid) ∧
    base54 7 = ([byteOfDigit 7], none) ∧
    ((base54 9223372036854775807).2 = none ∧
      (base54 9223372036854775807).1.length ≤ 11 ∧
      (54 ≤ (9223372036854775807 : Int) →
        (base54 9223372036854775807).1.headD 0 ≠ byteOfDigit 0)) :=
  ⟨(claim_C6_encode (-1)).1 (by decide),
   (claim_C6_encode 7).2.1 (by decide) (by decide),
   (claim_C6_encode 9223372036854775807).2.2 (by decide) (by decide)⟩

/-- C10: Parse/decode performs no length validation: the empty string decodes
to 0 with no error, a string of the zero symbol repeated any number of times
(also well beyond 11 characters) is processed and decodes to 0 with no error,
and in general the loop processes a valid string of any length digit by digit
(Horner accumulation modulo 2 ^ 64). -/
theorem claim_C10_no_length_validation :
    decode54 [] = (0, none) ∧
    (∀ n : Nat, decode54 (List.replicate n 103) = (0, none)) ∧
    (∀ s : List Nat, (∀ b ∈ s, b ∈ alphabetBytes) →
      decode54Loop 0 s = some (hornerVal 0 (s.map decodeMap) % 2 ^ 64)) := by
  refine ⟨by decide, ?_, ?_⟩
  · intro n
    have hval : ∀ m : Nat, hornerVal 0 (List.replicate m 0) = 0 := by
      intro m
      induction m with
      | zero => rfl
      | succ k ih =>
        rw [List.replicate_succ, hornerVal_cons]
        simpa using ih
    have hv : ∀ b ∈ List.replicate n 103, b ∈ alphabetBytes := by
      intro b hb
      rw [List.eq_of_mem_replicate hb]
      decide
    have hmap : (List.replicate n 103).map decodeMap = List.replicate n 0 := by
      rw [List.map_replicate]
      have h0 : decodeMap 103 = 0 := by decide
      rw [h0]
    rw [decode54_of_valid_small hv (by rw [hmap, hval n]; norm_num), hmap, hval n]
    rfl
  · intro s hv
    exact decode54Loop_valid s 0 (by norm_num) (fun b hb => decodeMap_mem b (hv b hb))

theorem claim_C10_witness : decode54 (List.replicate 12 103) = (0, none) :=
  claim_C10_no_length_validation.2.1 12

/-- C5: any byte string containing a byte outside the alphabet decodes to the
sentinel with the invalid-byte error; the 256-entry table marks every
non-alphabet byte 0xFF and maps every alphabet character to its position. -/
theorem claim_C5_invalid_byte :
    (∀ s : List Nat, (∀ b ∈ s, b < 256) → (∃ b ∈ s, b ∉ alphabetBytes) →
      decode54 s = (Invalid, some ErrorInvalidByte)) ∧
    (∀ b : Nat, b < 256 → b ∉ alphabetBytes → decodeMap b = 0xFF) ∧
    (∀ i : Nat, i < 54 → decodeMap (alphabetBytes.getD i 0) = i) := by
  refine ⟨?_, fun b _ hb => decodeMap_not_mem b hb, fun i hi => decodeMap_byteOfDigit i hi⟩
  intro s _ hex
  obtain ⟨b, hb, hbn⟩ := hex
  have hnone : decode54Loop 0 s = none :=
    decode54Loop_invalid s 0 ⟨b, hb, decodeMap_not_mem b hbn⟩
  unfold decode54
  rw [hnone]

theorem claim_C5_witness :
    decode54 [110, 33, 72] = (Invalid, some ErrorInvalidByte) ∧
    decodeMap 33 = 0xFF ∧ decodeMap (alphabetBytes.getD 11 0) = 11 :=
  ⟨claim_C5_invalid_byte.1 [110, 33, 72] (by decide) ⟨33, by decide, by decide⟩,
   claim_C5_invalid_byte.2.1 33 (by decide) (by decide),
   claim_C5_invalid_byte.2.2 11 (by decide)⟩

/-- C4 as stated is false: a string over the alphabet may have a numeric value
exceeding the maximum valid ID and still decode without error.  The
12-character string with value exactly 2 ^ 64 wraps to 0 in the int64
accumulator and decodes to (0, no error) instead of the sentinel. -/
theorem claim_C4_counterexample :
    (∀ b ∈ ([56, 52, 71, 107, 100, 80, 121, 75, 52, 89, 117, 88] : List Nat),
      b ∈ alphabetBytes) ∧
    hornerVal 0 (List.map decodeMap [56, 52, 71, 107, 100, 80, 121, 75, 52, 89, 117, 88]) =
      2 ^ 64 ∧
    decode54 [56, 52, 71, 107, 100, 80, 121, 75, 52, 89, 117, 88] = (0, none) :=
  ⟨by decide, by decide, by decide⟩

/-- C4, amended: for every string over the alphabet whose numeric value exceeds
2 ^ 63 - 1 but stays below 2 ^ 64 — in particular every such string of at most
11 characters — decoding fails with the invalid-id error and returns the
sentinel.  (Values of 2 ^ 64 and beyond can wrap past the final sign check.) -/
theorem claim_C4_overflow (s : List Nat) (hv : ∀ b ∈ s, b ∈ alphabetBytes)
    (h1 : 2 ^ 63 ≤ hornerVal 0 (s.map decodeMap))
    (h2 : hornerVal 0 (s.map decodeMap) < 2 ^ 64 ∨ s.length ≤ 11) :
    decode54 s = (Invalid, some ErrorInvalid) := by
  have hfull : hornerVal 0 (s.map decodeMap) < 2 ^ 64 := by
    rcases h2 with h2 | h2
    · exact h2
    · refine hornerVal_lt_of_length ?_ (by rw [List.length_map]; exact h2)
      intro d hd
      obtain ⟨b, hb, rfl⟩ := List.mem_map.mp hd
      exact decodeMap_lt_54 b (decodeMap_mem b (hv b hb))
  exact decode54_of_valid_overflow hv h1 hfull

theorem claim_C4_overflow_witness :
    decode54 [120, 90, 78, 109, 107, 116, 72, 69, 122, 53, 72] =
      (Invalid, some ErrorInvalid) :=
  claim_C4_overflow _ (by decide) (by decide) (Or.inr (by decide))

/-- C3 as stated is false: a string over the alphabet with a redundant leading
zero symbol decodes to an in-range value whose re-encoding is shorter.  The
two-character string of two zero symbols decodes to 0, which encodes back to
the single zero symbol. -/
theorem claim_C3_counterexample :
    ([103, 103] : List Nat).length ≤ 11 ∧
    (∀ b ∈ ([103, 103] : List Nat), b ∈ alphabetBytes) ∧
    decode54 [103, 103] = (0, none) ∧
    base54 0 = ([103], none) ∧ ([103] : List Nat) ≠ [103, 103] :=
  ⟨by decide, by decide, by decide, by decide, by decide⟩

/-- C3, amended: for every nonempty string of at most 11 alphabet characters
that is a single character or does not start with the zero symbol, if decoding
succeeds (so the value is within the supported range) then re-encoding the
decoded value reproduces the string exactly. -/
theorem claim_C3_reencode (s : List Nat) (hne : s ≠ []) (hlen : s.length ≤ 11)
    (hv : ∀ b ∈ s, b ∈ alphabetBytes)
    (hhead : s.length = 1 ∨ s.headD 0 ≠ 103)
    (v : Int) (hdec : decode54 s = (v, none)) :
    base54 v = (s, none) := by
  have hlt : ∀ d ∈ s.map decodeMap, d < 54 := by
    intro d hd
    obtain ⟨b, hb, rfl⟩ := List.mem_map.mp hd
    exact decodeMap_lt_54 b (decodeMap_mem b (hv b hb))
  have hfull : hornerVal 0 (s.map decodeMap) < 2 ^ 64 :=
    hornerVal_lt_of_length hlt (by rw [List.length_map]; exact hlen)
  by_cases hsmall : hornerVal 0 (s.map decodeMap) < 2 ^ 63
  · rw [decode54_of_valid_small hv hsmall] at hdec
    have hveq : (hornerVal 0 (s.map decodeMap) : Int) = v := congrArg Prod.fst hdec
    subst hveq
    rw [base54, if_neg (not_lt.mpr (Int.natCast_nonneg _)), Int.toNat_natCast]
    have hdsne : s.map decodeMap ≠ [] := by
      cases s with
      | nil => exact absurd rfl hne
      | cons b t => simp
    have hhead2 : (s.map decodeMap).length = 1 ∨ 1 ≤ (s.map decodeMap).headD 0 := by
      rcases hhead with h1 | h1
      · left
        rw [List.length_map]
        exact h1
      · right
        cases s with
        | nil => exact absurd rfl hne
        | cons b t =>
          simp only [List.map_cons, List.headD_cons] at h1 ⊢
          exact decodeMap_pos_of_ne_zero_symbol b (hv b (List.mem_cons_self b t)) h1
    rw [base54Digits_hornerVal (s.map decodeMap) hdsne hlt hhead2, List.map_map]
    have hcongr : List.map (byteOfDigit ∘ decodeMap) s = List.map id s :=
      List.map_congr_left (fun b hb => byteOfDigit_decodeMap b (hv b hb))
    rw [hcongr, List.map_id]
  · rw [decode54_of_valid_overflow hv (by omega) hfull] at hdec
    have : some ErrorInvalid = (none : Option SnowflakeError) := congrArg Prod.snd hdec
    exact absurd this (by simp)

theorem claim_C3_reencode_witness :
    base54 123123123 = ([110, 72, 87, 49, 97], none) :=
  claim_C3_reencode [110, 72, 87, 49, 97] (by decide) (by decide) (by decide)
    (Or.inr (by decide)) 123123123 (by decide)

/-! ### Bit-field arithmetic: the assembled ID as a sum of shifted fields -/

theorem lor_mul_pow_eq_add (a : Nat) {k b : Nat} (hb : b < 2 ^ k) :
    Nat.lor (a * 2 ^ k) b = a * 2 ^ k + b := by
  have h := Nat.mul_add_lt_is_or hb a
  rw [mul_comm a (2 ^ k)]
  exact h.symm

theorem nat_assemble_eq {t m s : Nat} (hm : m < 2 ^ 9) (hs : s < 2 ^ 12) :
    Nat.lor (Nat.lor (t * 2 ^ 21) (m * 2 ^ 12)) s = t * 2 ^ 21 + m * 2 ^ 12 + s := by
  have hm21 : m * 2 ^ 12 < 2 ^ 21 := by omega
  rw [lor_mul_pow_eq_add t hm21]
  have houter := Nat.mul_add_lt_is_or hs (t * 512 + m)
  have hrw : 2 ^ 12 * (t * 512 + m) = t * 2 ^ 21 + m * 2 ^ 12 := by omega
  rw [hrw] at houter
  exact houter.symm

theorem bits64_of_nonneg {x : Int} (h0 : 0 ≤ x) (h1 : x < 2 ^ 64) : bits64 x = x.toNat := by
  rw [bits64, Int.emod_eq_of_lt h0 h1]

theorem bits64_int64OfBits {n : Nat} (h : n < 2 ^ 64) : bits64 (int64OfBits n) = n := by
  by_cases hs : n < 2 ^ 63
  · rw [int64OfBits_of_lt hs, bits64, Int.emod_eq_of_lt (by positivity) (by exact_mod_cast h)]
    exact Int.toNat_natCast n
  · rw [int64OfBits, if_neg hs, bits64]
    omega

theorem int64Land_4095 (x : Int) : int64Land x 4095 = x % 4096 := by
  have hb : bits64 (4095 : Int) = 4095 := by decide
  rw [int64Land, hb]
  have hand : Nat.land (bits64 x) 4095 = bits64 x % 4096 := by
    have h := Nat.and_pow_two_sub_one_eq_mod (bits64 x) 12
    norm_num at h
    exact h
  rw [hand, int64OfBits_of_lt
    (by have := Nat.mod_lt (bits64 x) (show 0 < 4096 by norm_num); omega)]
  rw [bits64]
  omega

theorem int64Land_511 (x : Int) : int64Land x 511 = x % 512 := by
  have hb : bits64 (511 : Int) = 511 := by decide
  rw [int64Land, hb]
  have hand : Nat.land (bits64 x) 511 = bits64 x % 512 := by
    have h := Nat.and_pow_two_sub_one_eq_mod (bits64 x) 9
    norm_num at h
    exact h
  rw [hand, int64OfBits_of_lt
    (by have := Nat.mod_lt (bits64 x) (show 0 < 512 by norm_num); omega)]
  rw [bits64]
  omega

/-- On in-range field values the Go bit assembly is plain arithmetic: shifting
and or-ing disjoint fields is multiplication by powers of two plus addition. -/
theorem assembleID_eq {t m s : Int} (ht0 : 0 ≤ t) (ht : t < 2 ^ 42) (hm0 : 0 ≤ m)
    (hm : m < 512) (hs0 : 0 ≤ s) (hs : s < 4096) :
    assembleID t m s = t * 2 ^ 21 + m * 2 ^ 12 + s := by
  have htb : bits64 t = t.toNat := bits64_of_nonneg ht0 (by omega)
  have hmb : bits64 m = m.toNat := bits64_of_nonneg hm0 (by omega)
  have hsb : bits64 s = s.toNat := bits64_of_nonneg hs0 (by omega)
  have htn : t.toNat < 2 ^ 42 := by omega
  have hmn : m.toNat < 2 ^ 9 := by omega
  have hsn : s.toNat < 2 ^ 12 := by omega
  have hshl_t : t.toNat <<< 21 % 2 ^ 64 = t.toNat * 2 ^ 21 := by
    rw [Nat.shiftLeft_eq]
    omega
  have hshl_m : m.toNat <<< 12 % 2 ^ 64 = m.toNat * 2 ^ 12 := by
    rw [Nat.shiftLeft_eq]
    omega
  have hP : t.toNat * 2 ^ 21 < 2 ^ 64 := by omega
  have hQ : m.toNat * 2 ^ 12 < 2 ^ 64 := by omega
  have hlor_ofBits : ∀ p q : Nat, p < 2 ^ 64 → q < 2 ^ 64 →
      int64Lor (int64OfBits p) (int64OfBits q) = int64OfBits (Nat.lor p q) := by
    intro p q hp hq
    rw [int64Lor, bits64_int64OfBits hp, bits64_int64OfBits hq]
  rw [assembleID]
  rw [show bitsMachineID + bitsMachineSequence = 21 from rfl,
    show bitsMachineSequence = 12 from rfl]
  rw [int64Shl, int64Shl, htb, hmb, hshl_t, hshl_m]
  rw [hlor_ofBits _ _ (by omega) (by omega)]
  have hPQ : Nat.lor (t.toNat * 2 ^ 21) (m.toNat * 2 ^ 12) < 2 ^ 64 :=
    Nat.or_lt_two_pow hP hQ
  rw [int64Lor, bits64_int64OfBits hPQ, hsb]
  rw [nat_assemble_eq hmn hsn]
  rw [int64OfBits_of_lt (by omega : t.toNat * 2 ^ 21 + m.toNat * 2 ^ 12 + s.toNat < 2 ^ 63)]
  omega


theorem busyWait_some {previous : Int} : ∀ {now : Int} {later : List Int} {n : Int},
    busyWait previous now later = some n → previous < n ∧ n ∈ now :: later := by
  intro now later
  induction later generalizing now with
  | nil =>
    intro n h
    rw [busyWait] at h
    by_cases hc : previous < now
    · rw [if_pos hc] at h
      cases h
      exact ⟨hc, by simp⟩
    · rw [if_neg hc] at h
      cases h
  | cons t ts ih =>
    intro n h
    rw [busyWait] at h
    by_cases hc : previous < now
    · rw [if_pos hc] at h
      cases h
      exact ⟨hc, by simp⟩
    · rw [if_neg hc] at h
      obtain ⟨h1, h2⟩ := ih h
      exact ⟨h1, List.mem_cons_of_mem now h2⟩

theorem seq_mask (x : Int) : int64Land x bitMapMachineSequence = x % 4096 := by
  rw [show bitMapMachineSequence = (4095 : Int) from by decide]
  exact int64Land_4095 x

theorem finishGenerate_eq (st : GenState) (now : Int) :
    finishGenerate st now =
      (⟨now, (st.machineSequence + 1) % 4096, st.machineId⟩,
        assembleID now st.machineId ((st.machineSequence + 1) % 4096)) := by
  rw [finishGenerate, seq_mask]

/-- One successful Generate call: the new state records a sample as its
timestamp, keeps the machine id, holds a 12-bit sequence, returns exactly the
ID its fields assemble, and that ID strictly exceeds the one the previous
state assembles. -/
theorem generate_spec (st : GenState) (now : Int) (later : List Int) (st1 : GenState) (id : Int)
    (hInv : StInv st) (hb : ∀ x ∈ now :: later, 0 ≤ x ∧ x < 2 ^ 42)
    (hgen : generate st now later = some (st1, id)) :
    StInv st1 ∧ st1.machineId = st.machineId ∧ st1.previous ∈ now :: later ∧
    st.previous ≤ st1.previous ∧ id = idVal st1 ∧ idVal st < idVal st1 := by
  obtain ⟨hp0, hp42, hq0, hq4095, hm0, hm512⟩ := hInv
  have hmask : bitMapMachineSequence = (4095 : Int) := by decide
  rw [generate] at hgen
  by_cases h1 : now = st.previous ∧ st.machineSequence = bitMapMachineSequence
  · -- busy-wait branch
    rw [if_pos h1] at hgen
    obtain ⟨h1a, h1b⟩ := h1
    rw [hmask] at h1b
    cases hbw : busyWait st.previous now later with
    | none => rw [hbw] at hgen; cases hgen
    | some n =>
      rw [hbw, show Option.map (finishGenerate st) (some n) = some (finishGenerate st n)
        from rfl, finishGenerate_eq, Option.some.injEq] at hgen
      obtain ⟨hlt, hmem⟩ := busyWait_some hbw
      obtain ⟨hn0, hn42⟩ := hb n hmem
      obtain ⟨rfl, rfl⟩ := (Prod.mk.injEq _ _ _ _).mp hgen.symm
      refine ⟨?_, rfl, hmem, le_of_lt hlt, rfl, ?_⟩
      · unfold StInv
        dsimp only
        omega
      · rw [idVal, idVal]
        dsimp only
        rw [assembleID_eq hp0 hp42 hm0 hm512 hq0 (by omega),
          assembleID_eq hn0 hn42 hm0 hm512 (by omega) (by omega)]
        omega
  · rw [if_neg h1] at hgen
    by_cases h2 : st.previous < now
    · -- new-millisecond branch
      rw [if_pos h2, finishGenerate_eq, Option.some.injEq] at hgen
      obtain ⟨rfl, rfl⟩ := (Prod.mk.injEq _ _ _ _).mp hgen.symm
      obtain ⟨hn0, hn42⟩ := hb now (List.mem_cons_self _ _)
      refine ⟨?_, rfl, List.mem_cons_self _ _, le_of_lt h2, rfl, ?_⟩
      · unfold StInv
        dsimp only
        omega
      · rw [idVal, idVal]
        dsimp only
        rw [assembleID_eq hp0 hp42 hm0 hm512 hq0 (by omega),
          assembleID_eq hn0 hn42 hm0 hm512 (by omega) (by omega)]
        omega
    · rw [if_neg h2] at hgen
      by_cases h3 : now < st.previous
      · rw [if_pos h3] at hgen
        cases hgen
      · -- same-millisecond branch
        rw [if_neg h3, finishGenerate_eq, Option.some.injEq] at hgen
        obtain ⟨rfl, rfl⟩ := (Prod.mk.injEq _ _ _ _).mp hgen.symm
        have hnoweq : now = st.previous := by omega
        have hne : st.machineSequence ≠ 4095 := by
          intro hc
          exact h1 ⟨hnoweq, by rw [hmask]; exact hc⟩
        obtain ⟨hn0, hn42⟩ := hb now (List.mem_cons_self _ _)
        refine ⟨?_, rfl, List.mem_cons_self _ _, le_of_eq hnoweq.symm, rfl, ?_⟩
        · unfold StInv
          dsimp only
          omega
        · rw [idVal, idVal]
          dsimp only
          rw [assembleID_eq hp0 hp42 hm0 hm512 hq0 (by omega),
            assembleID_eq hn0 hn42 hm0 hm512 (by omega) (by omega), hnoweq]
          omega

theorem runSamples_cons (c : Int × List Int) (rest : List (Int × List Int)) :
    runSamples (c :: rest) = (c.1 :: c.2) ++ runSamples rest := by
  rw [runSamples, runSamples, List.map_cons, List.flatten_cons]

/-- A run of calls under a monotone, in-range clock: every produced ID exceeds
the ID recorded by the starting state, and the list is strictly increasing. -/
theorem genCalls_spec : ∀ (calls : List (Int × List Int)) (st stF : GenState)
    (ids : List Int), StInv st →
    List.Pairwise (· ≤ ·) (st.previous :: runSamples calls) →
    (∀ x ∈ runSamples calls, 0 ≤ x ∧ x < 2 ^ 42) →
    genCalls st calls = some (stF, ids) →
    List.Pairwise (· < ·) ids ∧ ∀ x ∈ ids, idVal st < x := by
  intro calls
  induction calls with
  | nil =>
    intro st stF ids _ _ _ hgen
    rw [genCalls, Option.some.injEq] at hgen
    obtain ⟨rfl, rfl⟩ := (Prod.mk.injEq _ _ _ _).mp hgen.symm
    simp
  | cons c rest ih =>
    intro st stF ids hInv hpw hbnd hgen
    rw [genCalls] at hgen
    cases hg : generate st c.1 c.2 with
    | none =>
      rw [hg] at hgen
      cases hgen
    | some p =>
      obtain ⟨st1, id⟩ := p
      rw [hg] at hgen
      dsimp only at hgen
      cases hrest : genCalls st1 rest with
      | none =>
        rw [hrest] at hgen
        cases hgen
      | some q =>
        obtain ⟨stF1, ids1⟩ := q
        rw [hrest] at hgen
        dsimp only at hgen
        rw [Option.some.injEq] at hgen
        obtain ⟨rfl, rfl⟩ := (Prod.mk.injEq _ _ _ _).mp hgen.symm
        rw [runSamples_cons] at hpw hbnd
        have hbc : ∀ x ∈ c.1 :: c.2, 0 ≤ x ∧ x < 2 ^ 42 :=
          fun x hx => hbnd x (List.mem_append_left _ hx)
        obtain ⟨hInv1, hmid, hmem, hprevle, hid, hlt⟩ :=
          generate_spec st c.1 c.2 st1 id hInv hbc hg
        have hpw1 : List.Pairwise (· ≤ ·) (st1.previous :: runSamples rest) := by
          rw [List.pairwise_cons] at hpw
          obtain ⟨hhead, htail⟩ := hpw
          rw [List.pairwise_append] at htail
          obtain ⟨hta, htb, htc⟩ := htail
          rw [List.pairwise_cons]
          exact ⟨fun y hy => htc st1.previous hmem y hy, htb⟩
        have hbnd1 : ∀ x ∈ runSamples rest, 0 ≤ x ∧ x < 2 ^ 42 :=
          fun x hx => hbnd x (List.mem_append_right _ hx)
        obtain ⟨hpwids, hgt⟩ := ih st1 stF ids1 hInv1 hpw1 hbnd1 hrest
        refine ⟨?_, ?_⟩
        · rw [List.pairwise_cons]
          exact ⟨fun y hy => hid ▸ hgt y hy, hpwids⟩
        · intro x hx
          rcases List.mem_cons.mp hx with rfl | hx
          · rw [hid]
            exact hlt
          · exact lt_trans hlt (hgt x hx)

/-! ### Generator claims -/

/-- C2: N sequential Generate calls by one caller with a configured machine
identifier and a monotone in-range clock (samples never decrease, starting from
the recorded timestamp) return IDs that are strictly increasing in call order,
hence pairwise distinct. -/
theorem claim_C2_strict_monotonic (st : GenState) (calls : List (Int × List Int))
    (stF : GenState) (ids : List Int) (hInv : StInv st)
    (hpw : List.Pairwise (· ≤ ·) (st.previous :: runSamples calls))
    (hbnd : ∀ x ∈ runSamples calls, 0 ≤ x ∧ x < 2 ^ 42)
    (hgen : genCalls st calls = some (stF, ids)) :
    List.Pairwise (· < ·) ids ∧ List.Pairwise (· ≠ ·) ids := by
  obtain ⟨h1, _⟩ := genCalls_spec calls st stF ids hInv hpw hbnd hgen
  exact ⟨h1, h1.imp (fun h => ne_of_lt h)⟩

theorem claim_C2_witness :
    List.Pairwise (· < ·) ([12289, 12290, 2109440] : List Int) ∧
    List.Pairwise (· ≠ ·) ([12289, 12290, 2109440] : List Int) :=
  claim_C2_strict_monotonic (initialState 3) [(0, []), (0, []), (1, [])]
    ⟨1, 0, 3⟩ [12289, 12290, 2109440] (by unfold StInv; decide) (by decide) (by decide)
    (by decide)

/-- C7: an ID assembled from a timestamp below 2 ^ 42, machine identifier below
512 and sequence below 4096 yields those fields back through the accessors:
Time is the timestamp plus the epoch, MachineId and MachineSequence are the
stored fields.  The accessors are pure functions of the stored integer. -/
theorem claim_C7_accessors (t m s : Int) (ht0 : 0 ≤ t) (ht : t < 2 ^ 42) (hm0 : 0 ≤ m)
    (hm : m < 512) (hs0 : 0 ≤ s) (hs : s < 4096) :
    Time (assembleID t m s) = t + Epoch ∧
    MachineId (assembleID t m s) = m ∧
    MachineSequence (assembleID t m s) = s := by
  rw [assembleID_eq ht0 ht hm0 hm hs0 hs]
  refine ⟨?_, ?_, ?_⟩
  · rw [Time, int64Shr, show bitsMachineID + bitsMachineSequence = 21 from rfl]
    have hdiv : (t * 2 ^ 21 + m * 2 ^ 12 + s) / 2 ^ 21 = t := by omega
    rw [hdiv]
  · rw [MachineId, int64Shr, show bitsMachineSequence = 12 from rfl,
      show bitMapMachineId = (511 : Int) from by decide, int64Land_511]
    omega
  · rw [MachineSequence, show bitMapMachineSequence = (4095 : Int) from by decide,
      int64Land_4095]
    omega

theorem claim_C7_witness :
    Time (assembleID 145446469758 35 0) = 145446469758 + Epoch ∧
    MachineId (assembleID 145446469758 35 0) = 35 ∧
    MachineSequence (assembleID 145446469758 35 0) = 0 :=
  claim_C7_accessors 145446469758 35 0 (by decide) (by decide) (by decide) (by decide)
    (by decide) (by decide)

/-- C8: with a configured machine identifier and the sampled elapsed
milliseconds inside the 42-bit timestamp range, every ID a Generate call
returns is nonnegative and never the sentinel. -/
theorem claim_C8_nonneg (st : GenState) (now : Int) (later : List Int) (st1 : GenState)
    (id : Int) (hInv : StInv st) (hb : ∀ x ∈ now :: later, 0 ≤ x ∧ x < 2 ^ 42)
    (hgen : generate st now later = some (st1, id)) :
    0 ≤ id ∧ id ≠ Invalid := by
  obtain ⟨hInv1, _, _, _, hid, _⟩ := generate_spec st now later st1 id hInv hb hgen
  obtain ⟨hp0, hp42, hq0, hq4095, hm0, hm512⟩ := hInv1
  rw [hid, idVal, assembleID_eq hp0 hp42 hm0 hm512 hq0 (by omega),
    show Invalid = (-1 : Int) from rfl]
  omega

theorem claim_C8_witness : 0 ≤ (1 : Int) ∧ (1 : Int) ≠ Invalid :=
  claim_C8_nonneg (initialState 0) 0 [] ⟨0, 1, 0⟩ 1 (by unfold StInv; decide) (by decide)
    (by decide)

/-- C9 as stated is false: an underlying encoding failure is not propagated by
MarshalJSON.  For the sentinel the base54 call fails, but the String method
swallows the error and returns the empty string, so MarshalJSON returns the
quoted empty string with no error instead of an error. -/
theorem claim_C9_counterexample :
    base54 Invalid = ([], some ErrorInvalid) ∧
    MarshalJSON Invalid = ([34, 34], none) :=
  ⟨by decide, by decide⟩

/-- C9, amended: for every nonnegative ID MarshalJSON returns the base-54
encoding wrapped in JSON double quotes with no error; for a negative ID
(including the sentinel) the encoding failure is masked and MarshalJSON
returns the quoted empty string with no error. -/
theorem claim_C9_marshal (id : Int) :
    (0 ≤ id → MarshalJSON id = (34 :: (base54 id).1 ++ [34], none)) ∧
    (id < 0 → MarshalJSON id = ([34, 34], none)) := by
  constructor
  · intro h0
    have hb : base54 id = ((base54Digits id.toNat).map byteOfDigit, none) := by
      rw [base54, if_neg (not_lt.mpr h0)]
    simp [MarshalJSON, idString, jsonMarshalString, hb]
  · intro hneg
    have hb : base54 id = ([], some ErrorInvalid) := by
      rw [base54, if_pos hneg]
    simp [MarshalJSON, idString, jsonMarshalString, hb]

theorem claim_C9_marshal_witness :
    MarshalJSON 123123 = (34 :: (base54 123123).1 ++ [34], none) ∧
    MarshalJSON (-7) = ([34, 34], none) :=
  ⟨(claim_C9_marshal 123123).1 (by decide), (claim_C9_marshal (-7)).2 (by decide)⟩

/-! ### Fixtures from the test file and supporting configuration facts -/

theorem base54_fixture_21 : base54 123 = ([50, 49], none) := by decide

theorem base54_fixture_nHW1a : base54 123123123 = ([110, 72, 87, 49, 97], none) := by decide

theorem base54_fixture_max :
    base54 9223372036854775807 =
      ([69, 90, 78, 109, 107, 116, 72, 69, 122, 53, 72], none) := by decide

theorem parse_fixture_nHW1a : Parse [110, 72, 87, 49, 97] = (123123123, none) := by decide

theorem parse_fixture_overflow :
    Parse [120, 90, 78, 109, 107, 116, 72, 69, 122, 53, 72] =
      (Invalid, some ErrorInvalid) := by decide

theorem doc_example_accessors :
    Time 305023354946072576 = 1723283270758 ∧
    MachineId 305023354946072576 = 35 ∧
    MachineSequence 305023354946072576 = 0 := by decide

theorem int64Land_7 (x : Int) : int64Land x 7 = x % 8 := by
  have hb : bits64 (7 : Int) = 7 := by decide
  rw [int64Land, hb]
  have hand : Nat.land (bits64 x) 7 = bits64 x % 8 := by
    have h := Nat.and_pow_two_sub_one_eq_mod (bits64 x) 3
    norm_num at h
    exact h
  rw [hand, int64OfBits_of_lt
    (by have := Nat.mod_lt (bits64 x) (show 0 < 8 by norm_num); omega)]
  rw [bits64]
  omega

theorem int64Land_63 (x : Int) : int64Land x 63 = x % 64 := by
  have hb : bits64 (63 : Int) = 63 := by decide
  rw [int64Land, hb]
  have hand : Nat.land (bits64 x) 63 = bits64 x % 64 := by
    have h := Nat.and_pow_two_sub_one_eq_mod (bits64 x) 6
    norm_num at h
    exact h
  rw [hand, int64OfBits_of_lt
    (by have := Nat.mod_lt (bits64 x) (show 0 < 64 by norm_num); omega)]
  rw [bits64]
  omega

/-- Every machine id that `SetMachineId` installs fits the 9-bit field: this
justifies the machine-id bounds assumed by the generator invariant. -/
theorem setMachineId_range (region : String) (index mid : Int)
    (h : setMachineId region index = some mid) : 0 ≤ mid ∧ mid < 512 := by
  rw [setMachineId] at h
  by_cases hc : getContinentCode region < 0 ∨ index < 0 ∨
      ((2 : Int) ^ (bitsMachineID - 3) : Int) ≤ index
  · rw [if_pos hc] at h
    cases h
  · rw [if_neg hc] at h
    rw [Option.some.injEq] at h
    subst h
    rw [show bitsMachineID - 3 = 6 from rfl, int64Land_7,
      show (2 : Int) ^ 6 - 1 = 63 from by norm_num, int64Land_63]
    have hc8 : 0 ≤ getContinentCode region % 8 ∧ getContinentCode region % 8 < 8 := by omega
    have hi64 : 0 ≤ index % 64 ∧ index % 64 < 64 := by omega
    have hshl : int64Shl (getContinentCode region % 8) 6 =
        int64OfBits ((getContinentCode region % 8).toNat * 2 ^ 6) := by
      rw [int64Shl, bits64_of_nonneg hc8.1 (by omega)]
      rw [Nat.shiftLeft_eq]
      have hm : (getContinentCode region % 8).toNat * 2 ^ 6 % 2 ^ 64 =
          (getContinentCode region % 8).toNat * 2 ^ 6 := by omega
      rw [hm]
    rw [hshl, int64Lor, bits64_int64OfBits (by omega),
      bits64_of_nonneg hi64.1 (by omega)]
    have hlor : Nat.lor ((getContinentCode region % 8).toNat * 2 ^ 6) (index % 64).toNat <
        2 ^ 9 :=
      Nat.or_lt_two_pow (by omega) (by omega)
    rw [int64OfBits_of_lt (by omega)]
    omega

theorem initialState_StInv (mid : Int) (h0 : 0 ≤ mid) (h1 : mid < 512) :
    StInv (initialState mid) := by
  unfold StInv initialState
  refine ⟨le_refl 0, by norm_num, le_refl 0, by norm_num, h0, h1⟩

end Snowflake
